import Mathlib

/-!
Verification of the short-code allocation subsystem of the web-tools
repository: the code-space enumerator (`indexToCode`), the allocation
store and allocator (`allocateCode` and its recycle pool), the release
operation (`recycleCode`), the sliding-window rate limiter
(`checkLinkShortenAllowed`), the pruner (`pruneOldLinks`), and the
process-start configuration validator (`validateConfig`).

The JavaScript sources are embedded shallowly: every database table is a
pure value (the single-row cursor table is an `Option Nat`, the recycle
pool a list of code strings, the short-links table a list of rows), every
database mutation is explicit state passing, and every fallible operation
returns an `Option` or an `Except`.  Thrown JS errors are `Except.error`
values; the generic error messages of the source become the constructors
of `AllocError`.  JS numbers holding non-negative integers are `Nat`,
timestamps are `Int` (in minutes).
-/

/-! ## Code Space Enumerator (codegen.js) -/

/-- The 79-character URL-safe alphabet from codegen.js.  The source string
contains an apostrophe (ASCII 39), spliced here via `Char.ofNat` so the
literal stays printable. -/
def ALPHABET : List Char :=
  ("abcdefghijklmnopqrstuvwxyzABCDEFGHIJKLMNOPQRSTUVWXYZ0123456789-_.~!$&".push
    (Char.ofNat 39) ++ "()*+,;=@:").toList

/-- `BASE = ALPHABET.length` (= 79), as in the source. -/
def BASE : Nat := ALPHABET.length

/-- `MAX_LEN = 16`, the short_code column size. -/
def MAX_LEN : Nat := 16

/-- The while-loop of `indexToCode` that finds the code length: subtract
block sizes `BASE^1, BASE^2, ...` until the remainder fits in the current
block.  Returns `(remaining, length)` on exit, `none` when the loop would
throw `Exhausted code space (length > MAX_LEN)`.  `fuel` is a structural
bound on the iteration count; the loop body increments `length` every
iteration and throws once `length` exceeds `MAX_LEN`, so with
`fuel = MAX_LEN` the fuel can never be consumed before the length check
fires, and the `fuel = 0` branch returns the same `none`. -/
def indexToCodeFind (fuel remaining length blockSize : Nat) : Option (Nat × Nat) :=
  if remaining < blockSize then some (remaining, length)
  else
    match fuel with
    | 0 => none
    | fuel + 1 =>
      if MAX_LEN < length + 1 then none
      else indexToCodeFind fuel (remaining - blockSize) (length + 1) (blockSize * BASE)

/-- The digit-extraction loop of `indexToCode`: positions are filled from
the last (least significant) to the first with `n % BASE`, dividing `n` by
`BASE` each step.  This returns the digits least-significant first; the
rendered code is their reverse. -/
def codeDigitsLE : Nat → Nat → List Nat
  | 0, _ => []
  | len + 1, n => n % BASE :: codeDigitsLE len (n / BASE)

/-- Renders the in-block offset `remaining` as a fixed-width base-`BASE`
numeral of width `length`, most significant digit first, using `ALPHABET`
as digit symbols (the `'a'` default mirrors the `Array(length).fill('a')`
initialiser; every position is overwritten). -/
def renderCode (remaining length : Nat) : String :=
  String.mk (((codeDigitsLE length remaining).reverse).map fun d => ALPHABET.getD d 'a')

/-- `indexToCode` from codegen.js.  The JS negative-index guard is outside
the `Nat` domain of the model; `none` is the `CodeSpaceExhausted` throw. -/
def indexToCode (index : Nat) : Option String :=
  match indexToCodeFind MAX_LEN index 1 BASE with
  | none => none
  | some (remaining, length) => some (renderCode remaining length)

/-- `blockTotal L = BASE^1 + BASE^2 + ... + BASE^L`: the number of codes of
length at most `L` (0 when `L = 0`). -/
def blockTotal : Nat → Nat
  | 0 => 0
  | n + 1 => blockTotal n + BASE ^ (n + 1)

/-- Rank of a character in the alphabet (digit value). -/
def digitVal (c : Char) : Nat := List.indexOf c ALPHABET

/-- Conceptual inverse of `indexToCode` (the spec describes the enumerator
as mapping an index "to a short code string and back conceptually"): the
count of all strictly shorter codes plus the rank of the digit string. -/
def codeToIndex (code : String) : Nat :=
  blockTotal (code.length - 1) +
    code.toList.foldl (fun acc c => acc * BASE + digitVal c) 0

/-- Value of a least-significant-first digit list. -/
def valLE : List Nat → Nat
  | [] => 0
  | d :: ds => d + BASE * valLE ds

/-! ## Allocation Store and Code Allocator (codegen.js) -/

/-- `RESERVED_CODES` from codegen.js. -/
def RESERVED_CODES : List String :=
  ["api", "app", "security", "login", "register", "logout", "_astro",
   "favicon.svg", "robots.txt", "sitemap.xml"]

/-- The persistent state of the allocation store: the `code_state` table
(a single row `id = 1` holding `next_index`; `none` when the row is
missing) and the `recycled_codes` table (its primary key makes the codes
distinct; `code_length` is derivable as the code's length, which is
exactly what `recycleCode` stores). -/
structure CodegenState where
  next_index : Option Nat
  recycled_codes : List String
deriving DecidableEq

/-- `ensureCodegenTables`: `CREATE TABLE IF NOT EXISTS` is a no-op at this
level of abstraction; `INSERT IGNORE INTO code_state (id, next_index)
VALUES (1, 0)` initialises the cursor row only when it is missing. -/
def ensureCodegenTables (s : CodegenState) : CodegenState :=
  match s.next_index with
  | none => { s with next_index := some 0 }
  | some _ => s

/-- Lexicographic comparison of code strings by character code, embedding
the SQL `short_code ASC` sort key. -/
def lexLeAux : List Char → List Char → Bool
  | [], _ => true
  | _ :: _, [] => false
  | c :: cs, d :: ds => if c = d then lexLeAux cs ds else decide (c < d)

def lexLe (a b : String) : Bool := lexLeAux a.toList b.toList

/-- The `ORDER BY code_length ASC, short_code ASC` sort key of the
recycled-codes query. -/
def recycledOrder (a b : String) : Bool :=
  if a.length = b.length then lexLe a b else decide (a.length < b.length)

/-- Ordered insertion; `sortRecycled` below is insertion sort with it.  A
sort is the embedding of the SQL `ORDER BY`: since `(length, code)` is a
strict total order on the distinct pool entries, the sorted list is
unique, so the choice of algorithm is immaterial. -/
def insertOrdered {α : Type} (le : α → α → Bool) (c : α) : List α → List α
  | [] => [c]
  | d :: ds => if le c d then c :: d :: ds else d :: insertOrdered le c ds

def sortRecycled (l : List String) : List String :=
  l.foldr (insertOrdered recycledOrder) []

/-- The scan over the locked batch in `_allocateCodeInternal`: return the
first candidate not in the reserved set. -/
def firstNonReserved : List String → Option String
  | [] => none
  | code :: rest =>
    if code ∈ RESERVED_CODES then firstNonReserved rest else some code

/-- The three generic error messages `_allocateCodeInternal` can surface:
`Service temporarily unavailable`, `Service configuration error`, and the
catch-all `Service error`. -/
inductive AllocError
  | serviceUnavailable
  | configurationError
  | serviceError
deriving DecidableEq

/-- The reserved-skip loop of `_allocateCodeInternal`: starting at the
cursor index, recompute `indexToCode` while the code is reserved,
bounded by the retry limit (`fuel = maxRetries`; the JS loop throws
`Service temporarily unavailable` once `retries > maxRetries`, i.e. after
`maxRetries` skips).  An `indexToCode` failure (code space exhausted) is
caught by the surrounding catch and resurfaces as the generic
`Service error`. -/
def skipReservedCodes (fuel idx : Nat) : Except AllocError (Nat × String) :=
  match indexToCode idx with
  | none => .error .serviceError
  | some code =>
    if code ∈ RESERVED_CODES then
      match fuel with
      | 0 => .error .serviceUnavailable
      | fuel + 1 => skipReservedCodes fuel (idx + 1)
    else .ok (idx, code)

/-- `_allocateCodeInternal` from codegen.js, as a state transformer on the
store: fetch the smallest ten recycled candidates, return the first
non-reserved one after deleting it; otherwise read the locked cursor row
(missing row = `Service configuration error`), skip reserved codes under
the retry bound, advance `next_index` past the final consumed index and
return the minted code.  On any error the transaction rolls back, leaving
the state unchanged. -/
def allocateCodeInternal (maxRetries : Nat) (s : CodegenState) :
    Except AllocError (String × Bool) × CodegenState :=
  let recycled := (sortRecycled s.recycled_codes).take 10
  match firstNonReserved recycled with
  | some code =>
    (.ok (code, true), { s with recycled_codes := s.recycled_codes.erase code })
  | none =>
    match s.next_index with
    | none => (.error .configurationError, s)
    | some nextIndex =>
      match skipReservedCodes maxRetries nextIndex with
      | .error e => (.error e, s)
      | .ok (finalIndex, code) =>
        (.ok (code, false), { s with next_index := some (finalIndex + 1) })

/-- The `limits` section of the application configuration, as read by
codegen.js and rateLimit.js (every key may be absent). -/
structure LimitsConfig where
  linkShortenerPerHour : Option Nat
  linkShortenerGlobalPerHour : Option Nat
  rateLimitWindowMinutes : Option Nat
  codeAllocationRetries : Option Nat
  maxConcurrentAllocations : Option Nat
deriving DecidableEq

/-- `allocateCode` from codegen.js: run `ensureCodegenTables`, check the
process-wide in-flight counter (passed explicitly here) against
`config.limits?.maxConcurrentAllocations ?? 50`, then run the internal
allocation with `config.limits?.codeAllocationRetries ?? 10`.
`limits` stands for `getConfig().limits`. -/
def allocateCode (limits : Option LimitsConfig) (concurrentAllocations : Nat)
    (s : CodegenState) : Except AllocError (String × Bool) × CodegenState :=
  let s1 := ensureCodegenTables s
  let maxConcurrent := (limits.bind LimitsConfig.maxConcurrentAllocations).getD 50
  if maxConcurrent ≤ concurrentAllocations then (.error .serviceUnavailable, s1)
  else
    let maxRetries := (limits.bind LimitsConfig.codeAllocationRetries).getD 10
    allocateCodeInternal maxRetries s1

/-- `recycleCode` from codegen.js: no-op on the empty code and on reserved
codes; otherwise `INSERT IGNORE` into the recycle pool (idempotent: absent
keys only). -/
def recycleCode (code : String) (s : CodegenState) : CodegenState :=
  if code = "" then s
  else if code ∈ RESERVED_CODES then s
  else
    let s1 := ensureCodegenTables s
    if code ∈ s1.recycled_codes then s1
    else { s1 with recycled_codes := s1.recycled_codes ++ [code] }

/-! ## Rate Limiter (rateLimit.js) -/

/-- A row of the `short_links` table (the columns the limiter and the
pruner read).  `created_at` and `last_accessed` are timestamps in minutes;
`visitor_uuid` and `ip` are nullable. -/
structure ShortLinkRow where
  short_code : String
  created_at : Int
  visitor_uuid : Option String
  ip : Option String
  last_accessed : Option Int
deriving DecidableEq

/-- JS `count < limit` where `limit` may be `undefined`: comparing a
number with `undefined` yields `false`. -/
def jsLtOpt (a : Nat) (b : Option Nat) : Bool :=
  match b with
  | none => false
  | some v => decide (a < v)

/-- `cfg.limits.rateLimitWindowMinutes || 60`: JS `||` replaces every
falsy value (absent key or 0) by 60. -/
def windowMinutesOf (limits : LimitsConfig) : Nat :=
  match limits.rateLimitWindowMinutes with
  | none => 60
  | some v => if v = 0 then 60 else v

/-- `created_at >= NOW() - INTERVAL windowMinutes MINUTE`. -/
def inWindow (now : Int) (w : Nat) (r : ShortLinkRow) : Bool :=
  decide (now - (w : Int) ≤ r.created_at)

/-- The record returned by `checkLinkShortenAllowed`. -/
structure RateLimitDecision where
  allowed : Bool
  byUuid : Nat
  byIp : Nat
  globalCount : Nat
  limit : Option Nat
  globalLimit : Option Nat
  windowMinutes : Nat
deriving DecidableEq

/-- `checkLinkShortenAllowed` from rateLimit.js: count rows created inside
the sliding window for the visitor uuid, the address, and globally
(`SUM(visitor_uuid = ?)` skips rows whose column is NULL or differs, which
is exactly the `countP` below), then allow only when the uuid count and
the ip count are below `limits.linkShortenerPerHour` and the global count
is below `limits.linkShortenerGlobalPerHour`. -/
def checkLinkShortenAllowed (limits : LimitsConfig) (rows : List ShortLinkRow)
    (now : Int) (visitorUuid ip : String) : RateLimitDecision :=
  let perUserLimit := limits.linkShortenerPerHour
  let globalLimit := limits.linkShortenerGlobalPerHour
  let w := windowMinutesOf limits
  let windowRows := rows.filter (inWindow now w)
  let byUuid := windowRows.countP fun r => decide (r.visitor_uuid = some visitorUuid)
  let byIp := windowRows.countP fun r => decide (r.ip = some ip)
  let globalCount := windowRows.length
  let userAllowed := jsLtOpt byUuid perUserLimit && jsLtOpt byIp perUserLimit
  let globalAllowed := jsLtOpt globalCount globalLimit
  { allowed := userAllowed && globalAllowed
    byUuid := byUuid
    byIp := byIp
    globalCount := globalCount
    limit := perUserLimit
    globalLimit := globalLimit
    windowMinutes := w }

/-! ## Pruner (prune.js) -/

/-- Result shape of `pruneOldLinks`: `{skipped: true}`,
`{skipped: false, affected: n}` or `{skipped: false, error: true}`. -/
inductive PruneOutcome
  | skipped
  | done (affected : Nat)
  | errored
deriving DecidableEq

/-- `COALESCE(last_accessed, created_at)`, the staleness key. -/
def staleKey (r : ShortLinkRow) : Int :=
  match r.last_accessed with
  | some t => t
  | none => r.created_at

/-- One day of the model's minute-valued timestamps
(`INTERVAL ? DAY`). -/
def minutesPerDay : Nat := 1440

def BATCH_SIZE : Nat := 200

/-- `ORDER BY COALESCE(last_accessed, created_at) ASC`. -/
def sortStale (l : List ShortLinkRow) : List ShortLinkRow :=
  l.foldr (insertOrdered fun a b => decide (staleKey a ≤ staleKey b)) []

/-- The stale batch selected by the pruner's SELECT: rows whose staleness
key is older than the retention threshold, oldest first, capped at
`BATCH_SIZE`, projected to their codes. -/
def staleBatch (days : Int) (now : Int) (links : List ShortLinkRow) : List String :=
  (((sortStale (links.filter fun r =>
      decide (staleKey r < now - days * (minutesPerDay : Int)))).take BATCH_SIZE).map
    ShortLinkRow.short_code)

/-- The per-item loop of `pruneOldLinks`.  `failDelete` injects transient
database failures: when `failDelete code` is true the `DELETE` for that
code throws, which the single try/catch wrapping the whole loop turns into
an early exit; the first component records whether the loop ran to
completion (`true`) or threw (`false`).  Deletions and recycles performed
before a throw are individual auto-committed statements and persist.  The
source's local constants (the affected-row count and the filtered table)
are inlined, which is equivalent since both are pure. -/
def pruneLoop (failDelete : String → Bool) :
    List String → List ShortLinkRow → CodegenState → Nat →
    Bool × Nat × List ShortLinkRow × CodegenState
  | [], links, cg, deleted => (true, deleted, links, cg)
  | code :: rest, links, cg, deleted =>
    if code = "" then pruneLoop failDelete rest links cg deleted
    else if failDelete code then (false, deleted, links, cg)
    else if 0 < links.countP fun r => decide (r.short_code = code) then
      pruneLoop failDelete rest (links.filter fun r => !decide (r.short_code = code))
        (recycleCode code cg)
        (deleted + links.countP fun r => decide (r.short_code = code))
    else pruneLoop failDelete rest (links.filter fun r => !decide (r.short_code = code))
      cg deleted

/-- `pruneOldLinks` from prune.js: skip unless
`delete_unused_after_days` is present and positive, select the stale
batch, delete each row and recycle its code; the whole loop sits in one
try/catch, so a thrown per-item failure ends the run with
`{error: true}` instead of propagating to the caller. -/
def pruneOldLinks (failDelete : String → Bool) (delete_unused_after_days : Option Int)
    (now : Int) (links : List ShortLinkRow) (cg : CodegenState) :
    PruneOutcome × List ShortLinkRow × CodegenState :=
  match delete_unused_after_days with
  | none => (.skipped, links, cg)
  | some days =>
    if days ≤ 0 then (.skipped, links, cg)
    else if (staleBatch days now links).isEmpty then (.done 0, links, cg)
    else
      match pruneLoop failDelete (staleBatch days now links) links cg 0 with
      | (true, deleted, links', cg') => (.done deleted, links', cg')
      | (false, _, links', cg') => (.errored, links', cg')

/-! ## Configuration validator (configSchema.js)

`ConfigSchema` is a zod object schema over the sections `app`, `features`,
`server` and `database`; `validateConfig` safe-parses a raw configuration
against it (`none` models the thrown `Configuration validation failed`).
Raw inputs are modelled with every key optional; zod's default object
policy strips keys that are not part of the schema, so the validated
output has no `limits` field at all. -/

structure RawFeature where
  enabled : Option Bool
  allow_anonymous : Option Bool
deriving DecidableEq

structure RawPasteFeature where
  enabled : Option Bool
  allow_anonymous : Option Bool
  max_length : Option Int
deriving DecidableEq

structure RawUploadsFeature where
  enabled : Option Bool
  allow_anonymous : Option Bool
  max_size : Option Int
deriving DecidableEq

structure RawFeatures where
  chat : Option RawFeature
  paste : Option RawPasteFeature
  linkShortener : Option RawFeature
  uploads : Option RawUploadsFeature
deriving DecidableEq

structure RawApp where
  baseUrl : Option String
  logLevel : Option String
deriving DecidableEq

structure RawServer where
  port : Option Int
deriving DecidableEq

structure RawDatabase where
  host : Option String
  port : Option Int
  user : Option String
  password : Option String
  database : Option String
deriving DecidableEq

/-- A raw configuration as handed to `validateConfig`.  The `limits`
section is carried so that its (non-)validation can be stated; it is not
part of `ConfigSchema`. -/
structure RawConfig where
  app : Option RawApp
  features : Option RawFeatures
  server : Option RawServer
  database : Option RawDatabase
  limits : Option LimitsConfig
deriving DecidableEq

structure FeatureCfg where
  enabled : Bool
  allow_anonymous : Bool
deriving DecidableEq

structure PasteCfg where
  enabled : Bool
  allow_anonymous : Bool
  max_length : Int
deriving DecidableEq

structure UploadsCfg where
  enabled : Bool
  allow_anonymous : Bool
  max_size : Int
deriving DecidableEq

structure FeaturesCfg where
  chat : FeatureCfg
  paste : PasteCfg
  linkShortener : FeatureCfg
  uploads : UploadsCfg
deriving DecidableEq

structure AppCfg where
  baseUrl : String
  logLevel : String
deriving DecidableEq

structure ServerCfg where
  port : Int
deriving DecidableEq

structure DatabaseCfg where
  host : String
  port : Int
  user : String
  password : String
  database : String
deriving DecidableEq

/-- The validated configuration (`result.data`).  It has no `limits`
field: zod strips keys absent from the schema. -/
structure ValidatedConfig where
  app : AppCfg
  features : FeaturesCfg
  server : ServerCfg
  database : DatabaseCfg
deriving DecidableEq

def logLevels : List String := ["trace", "debug", "info", "warn", "error"]

/-- Scan for a `://` separator. -/
def findSchemeSep : List Char → Bool
  | [] => false
  | c :: rest =>
    (c == ':' && (match rest with
      | d :: e :: _ => d == '/' && e == '/'
      | _ => false)) || findSchemeSep rest

/-- Approximation of `z.string().url()` (zod defers to the WHATWG URL
constructor): a nonempty scheme followed by `://`.  The theorems below
depend on it only at inputs the `or`-branch regex also accepts. -/
def zodUrlOk (s : String) : Bool :=
  match s.toList with
  | [] => false
  | c :: rest => !(c == ':') && findSchemeSep rest

/-- Drop a literal pattern from the front of a character list, `none`
when it does not match. -/
def dropLiteral : List Char → List Char → Option (List Char)
  | [], rest => some rest
  | _ :: _, [] => none
  | p :: ps, c :: cs => if p == c then dropLiteral ps cs else none

def allDigits : List Char → Bool
  | [] => true
  | c :: cs => c.isDigit && allDigits cs

/-- The regex branch of the baseUrl check:
`^http:\/\/localhost:\d+$`. -/
def isLocalhostUrl (s : String) : Bool :=
  match dropLiteral "http://localhost:".toList s.toList with
  | some rest => !rest.isEmpty && allDigits rest
  | none => false

/-- `z.string().url().or(z.string().regex(^http:\/\/localhost:\d+$))`. -/
def baseUrlOk (s : String) : Bool := zodUrlOk s || isLocalhostUrl s

def parseFeature (r : RawFeature) : Option FeatureCfg :=
  match r.enabled with
  | none => none
  | some e => some ⟨e, r.allow_anonymous.getD false⟩

def parsePasteFeature (r : RawPasteFeature) : Option PasteCfg :=
  match r.enabled with
  | none => none
  | some e =>
    let ml := r.max_length.getD 100000
    if 0 < ml ∧ ml ≤ 5000000 then some ⟨e, r.allow_anonymous.getD false, ml⟩
    else none

def parseUploadsFeature (r : RawUploadsFeature) : Option UploadsCfg :=
  match r.enabled with
  | none => none
  | some e =>
    let ms := r.max_size.getD (10 * 1024 * 1024)
    if 0 < ms ∧ ms ≤ 1024 ^ 4 then some ⟨e, r.allow_anonymous.getD false, ms⟩
    else none

def parseApp (r : RawApp) : Option AppCfg :=
  match r.baseUrl with
  | none => none
  | some u =>
    if baseUrlOk u then
      let ll := r.logLevel.getD "info"
      if ll ∈ logLevels then some ⟨u, ll⟩ else none
    else none

def parseServer (r : RawServer) : Option ServerCfg :=
  let p := r.port.getD 4321
  if 1 ≤ p ∧ p ≤ 65535 then some ⟨p⟩ else none

def parseDatabase (r : RawDatabase) : Option DatabaseCfg :=
  let host := r.host.getD "localhost"
  let port := r.port.getD 3306
  match r.user, r.password, r.database with
  | some u, some pw, some db =>
    if 1 ≤ host.length ∧ 0 < port ∧ 1 ≤ u.length ∧ 1 ≤ pw.length ∧ 1 ≤ db.length then
      some ⟨host, port, u, pw, db⟩
    else none
  | _, _, _ => none

def parseFeatures (r : RawFeatures) : Option FeaturesCfg :=
  match r.chat, r.paste, r.linkShortener, r.uploads with
  | some c, some p, some l, some u =>
    match parseFeature c, parsePasteFeature p, parseFeature l, parseUploadsFeature u with
    | some c2, some p2, some l2, some u2 => some ⟨c2, p2, l2, u2⟩
    | _, _, _, _ => none
  | _, _, _, _ => none

/-- `validateConfig` from configSchema.js: safe-parse against
`ConfigSchema`.  Only the four schema sections are inspected; the `limits`
key is not part of the schema and is stripped from the output. -/
def validateConfig (cfg : RawConfig) : Option ValidatedConfig :=
  match cfg.app, cfg.features, cfg.server, cfg.database with
  | some a, some f, some s, some d =>
    match parseApp a, parseFeatures f, parseServer s, parseDatabase d with
    | some a2, some f2, some s2, some d2 => some ⟨a2, f2, s2, d2⟩
    | _, _, _, _ => none
  | _, _, _, _ => none

/-- A raw configuration whose four schema sections are valid and whose
`limits` section is entirely absent. -/
def cfgWithoutLimits : RawConfig :=
  { app := some { baseUrl := some "http://localhost:4321", logLevel := none }
    features := some
      { chat := some { enabled := some true, allow_anonymous := none }
        paste := some { enabled := some true, allow_anonymous := none, max_length := none }
        linkShortener := some { enabled := some true, allow_anonymous := none }
        uploads := some { enabled := some true, allow_anonymous := none, max_size := none } }
    server := some { port := none }
    database := some
      { host := none, port := none, user := some "tools", password := some "secret",
        database := some "webtools" }
    limits := none }

/-! ## Theorems: the enumerator -/

lemma BASE_pos : 0 < BASE := by decide

lemma blockTotal_pred (len : Nat) (h : 1 ≤ len) :
    blockTotal (len - 1) + BASE ^ len = blockTotal len := by
  obtain ⟨m, rfl⟩ : ∃ m, len = m + 1 := ⟨len - 1, (Nat.succ_pred_eq_of_pos h).symm⟩
  simp [blockTotal]

/-- Loop invariant of the length-finding loop: on success the returned
offset is within the final block and the consumed block sizes account for
the difference between the entry remainder and the final one. -/
lemma indexToCodeFind_spec :
    ∀ fuel remaining length r L, 1 ≤ length →
      indexToCodeFind fuel remaining length (BASE ^ length) = some (r, L) →
      1 ≤ L ∧ r < BASE ^ L ∧
        remaining + blockTotal (length - 1) = r + blockTotal (L - 1) := by
  intro fuel
  induction fuel with
  | zero =>
    intro remaining length r L hlen h
    rw [indexToCodeFind] at h
    split at h
    · simp only [Option.some.injEq, Prod.mk.injEq] at h
      obtain ⟨rfl, rfl⟩ := h
      exact ⟨hlen, by assumption, rfl⟩
    · exact absurd h (by simp)
  | succ fuel ih =>
    intro remaining length r L hlen h
    rw [indexToCodeFind] at h
    split at h
    · simp only [Option.some.injEq, Prod.mk.injEq] at h
      obtain ⟨rfl, rfl⟩ := h
      exact ⟨hlen, by assumption, rfl⟩
    · rename_i hge
      split at h
      · exact absurd h (by simp)
      · rw [← pow_succ] at h
        obtain ⟨hL, hr, heq⟩ := ih (remaining - BASE ^ length) (length + 1) r L (by omega) h
        refine ⟨hL, hr, ?_⟩
        have hsub : BASE ^ length ≤ remaining := by omega
        have hbt : blockTotal (length - 1) + BASE ^ length = blockTotal length :=
          blockTotal_pred length hlen
        simp only [Nat.add_sub_cancel] at heq
        omega

lemma codeDigitsLE_length : ∀ L n, (codeDigitsLE L n).length = L := by
  intro L
  induction L with
  | zero => intro n; rfl
  | succ L ih => intro n; simp [codeDigitsLE, ih]

lemma codeDigitsLE_lt : ∀ L n d, d ∈ codeDigitsLE L n → d < BASE := by
  intro L
  induction L with
  | zero => intro n d h; simp [codeDigitsLE] at h
  | succ L ih =>
    intro n d h
    simp only [codeDigitsLE, List.mem_cons] at h
    rcases h with rfl | h
    · exact Nat.mod_lt _ BASE_pos
    · exact ih _ _ h

lemma valLE_codeDigitsLE : ∀ L n, valLE (codeDigitsLE L n) = n % BASE ^ L := by
  intro L
  induction L with
  | zero => intro n; simp [codeDigitsLE, valLE, Nat.mod_one]
  | succ L ih =>
    intro n
    simp only [codeDigitsLE, valLE, ih]
    rw [pow_succ', Nat.mod_mul]

lemma digitVal_getD : ∀ d, d < BASE → digitVal (ALPHABET.getD d 'a') = d := by decide

lemma foldl_digitVal_map :
    ∀ (ds : List Nat) (acc : Nat), (∀ d ∈ ds, d < BASE) →
      List.foldl (fun a c => a * BASE + digitVal c) acc
          (ds.map fun d => ALPHABET.getD d 'a')
        = List.foldl (fun a d => a * BASE + d) acc ds := by
  intro ds
  induction ds with
  | nil => intro acc _; rfl
  | cons d tl ih =>
    intro acc h
    simp only [List.map_cons, List.foldl_cons]
    rw [digitVal_getD d (h d (List.mem_cons_self d tl))]
    exact ih _ fun x hx => h x (List.mem_cons_of_mem d hx)

lemma foldl_base_reverse :
    ∀ (ds : List Nat) (acc : Nat),
      List.foldl (fun a d => a * BASE + d) acc ds.reverse
        = acc * BASE ^ ds.length + valLE ds := by
  intro ds
  induction ds with
  | nil => intro acc; simp [valLE]
  | cons d tl ih =>
    intro acc
    simp only [List.reverse_cons, List.foldl_append, List.foldl_cons, List.foldl_nil,
      ih, valLE, List.length_cons]
    rw [pow_succ]
    ring

/-- Decode round trip: whenever `indexToCode` succeeds, `codeToIndex`
recovers the index (and the code is nonempty). -/
lemma codeToIndex_indexToCode (i : Nat) (c : String) (h : indexToCode i = some c) :
    codeToIndex c = i ∧ 1 ≤ c.length := by
  rw [indexToCode] at h
  rcases hf : indexToCodeFind MAX_LEN i 1 BASE with _ | ⟨r, L⟩
  · rw [hf] at h; exact absurd h (by simp)
  · rw [hf] at h
    simp only [Option.some.injEq] at h
    subst h
    have hspec := indexToCodeFind_spec MAX_LEN i 1 r L (by omega)
      (by rw [← pow_one BASE] at hf; exact hf)
    obtain ⟨hL, hr, heq⟩ := hspec
    simp only [blockTotal] at heq
    have hlist : (renderCode r L).toList
        = (codeDigitsLE L r).reverse.map fun d => ALPHABET.getD d 'a' := rfl
    have hlen : (renderCode r L).length = L := by
      have : (renderCode r L).length
          = ((codeDigitsLE L r).reverse.map fun d => ALPHABET.getD d 'a').length := rfl
      simp [this, codeDigitsLE_length]
    constructor
    · rw [codeToIndex, hlen, hlist]
      have hmem : ∀ d ∈ (codeDigitsLE L r).reverse, d < BASE := by
        intro d hd
        exact codeDigitsLE_lt L r d (List.mem_reverse.mp hd)
      rw [foldl_digitVal_map _ _ hmem]
      rw [foldl_base_reverse (codeDigitsLE L r) 0, codeDigitsLE_length,
        valLE_codeDigitsLE, Nat.mod_eq_of_lt hr]
      omega
    · omega

/-- C1: the enumerator `indexToCode` is injective: two distinct indices on
which it succeeds never yield the same code.  Determinism (identical index,
identical code) is inherent in the embedding of `indexToCode` as a pure
function. -/
theorem indexToCode_injective (i j : Nat) (ci cj : String)
    (hij : i ≠ j) (hi : indexToCode i = some ci) (hj : indexToCode j = some cj) :
    ci ≠ cj := by
  intro hcc
  apply hij
  have h1 := (codeToIndex_indexToCode i ci hi).1
  have h2 := (codeToIndex_indexToCode j cj hj).1
  rw [← h1, ← h2, hcc]

theorem indexToCode_injective_witness :
    ("a" : String) ≠ "b" :=
  indexToCode_injective 0 1 "a" "b" (by decide) (by rfl) (by rfl)

/-! ## Theorems: the allocator -/

lemma firstNonReserved_spec :
    ∀ l c, firstNonReserved l = some c → c ∉ RESERVED_CODES ∧ c ∈ l := by
  intro l
  induction l with
  | nil => intro c h; exact absurd h (by simp [firstNonReserved])
  | cons a rest ih =>
    intro c h
    rw [firstNonReserved] at h
    split at h
    · obtain ⟨h1, h2⟩ := ih c h
      exact ⟨h1, List.mem_cons_of_mem a h2⟩
    · rename_i hnres
      simp only [Option.some.injEq] at h
      subst h
      exact ⟨hnres, List.mem_cons_self a rest⟩

lemma skipReservedCodes_spec :
    ∀ fuel idx m cf, skipReservedCodes fuel idx = .ok (m, cf) →
      idx ≤ m ∧ indexToCode m = some cf ∧ cf ∉ RESERVED_CODES ∧
        ∀ j, idx ≤ j → j < m → ∃ cj, indexToCode j = some cj ∧ cj ∈ RESERVED_CODES := by
  intro fuel
  induction fuel with
  | zero =>
    intro idx m cf h
    simp only [skipReservedCodes] at h
    split at h
    · exact absurd h (by simp)
    · rename_i c hic
      split at h
      · exact absurd h (by simp)
      · rename_i hres
        simp only [Except.ok.injEq, Prod.mk.injEq] at h
        obtain ⟨rfl, rfl⟩ := h
        exact ⟨le_refl _, hic, hres, fun j h1 h2 => absurd h2 (by omega)⟩
  | succ fuel ih =>
    intro idx m cf h
    simp only [skipReservedCodes] at h
    split at h
    · exact absurd h (by simp)
    · rename_i c hic
      split at h
      · rename_i hres
        obtain ⟨h1, h2, h3, h4⟩ := ih (idx + 1) m cf h
        refine ⟨by omega, h2, h3, fun j hj1 hj2 => ?_⟩
        rcases Nat.eq_or_lt_of_le hj1 with rfl | hj
        · exact ⟨c, hic, hres⟩
        · exact h4 j (by omega) hj2
      · rename_i hres
        simp only [Except.ok.injEq, Prod.mk.injEq] at h
        obtain ⟨rfl, rfl⟩ := h
        exact ⟨le_refl _, hic, hres, fun j h1 h2 => absurd h2 (by omega)⟩

/-- C2: from a state whose recycle pool is empty, a successful `allocate`
mints the code of the first non-reserved index at or past the cursor
(`reused = false`), every skipped index in between carries a reserved
code, the cursor ends one past the consumed index, and the pool stays
empty — so iterating `allocate` yields exactly the enumerator's order with
reserved codes skipped. -/
theorem allocate_empty_pool_enumerator_order (maxRetries k : Nat) (c : String) (b : Bool)
    (s' : CodegenState)
    (h : allocateCodeInternal maxRetries ⟨some k, []⟩ = (.ok (c, b), s')) :
    b = false ∧ ∃ m, k ≤ m ∧ indexToCode m = some c ∧ c ∉ RESERVED_CODES ∧
      (∀ j, k ≤ j → j < m → ∃ cj, indexToCode j = some cj ∧ cj ∈ RESERVED_CODES) ∧
      s' = ⟨some (m + 1), []⟩ := by
  simp only [allocateCodeInternal, sortRecycled, List.foldr_nil, List.take_nil,
    firstNonReserved] at h
  split at h
  · exact absurd h (by simp)
  · rename_i p m2 cf hsk
    simp only [Prod.mk.injEq, Except.ok.injEq] at h
    obtain ⟨⟨hcf, hb⟩, hs⟩ := h
    subst hcf; subst hb; subst hs
    obtain ⟨h1, h2, h3, h4⟩ := skipReservedCodes_spec maxRetries k m2 _ hsk
    exact ⟨rfl, m2, h1, h2, h3, h4, rfl⟩

theorem allocate_empty_pool_enumerator_order_witness :
    false = false ∧ ∃ m, 0 ≤ m ∧ indexToCode m = some "a" ∧ "a" ∉ RESERVED_CODES ∧
      (∀ j, 0 ≤ j → j < m → ∃ cj, indexToCode j = some cj ∧ cj ∈ RESERVED_CODES) ∧
      (⟨some 1, []⟩ : CodegenState) = ⟨some (m + 1), []⟩ :=
  allocate_empty_pool_enumerator_order 10 0 "a" false ⟨some 1, []⟩ rfl

lemma ensureCodegenTables_next_index (s : CodegenState) :
    ensureCodegenTables s = ⟨some (s.next_index.getD 0), s.recycled_codes⟩ := by
  cases s with
  | mk ni rc => cases ni <;> rfl

/-- C3: releasing a non-reserved, nonempty code into an empty recycle pool
and then allocating returns exactly that code with `reused = true`; the
pool is emptied again and the cursor is untouched, so no cursor-derived
code was issued. -/
theorem release_then_allocate_roundtrip (limits : Option LimitsConfig) (n : Nat)
    (c : String) (s : CodegenState)
    (hres : c ∉ RESERVED_CODES) (hne : c ≠ "") (hpool : s.recycled_codes = [])
    (hn : n < (limits.bind LimitsConfig.maxConcurrentAllocations).getD 50) :
    allocateCode limits n (recycleCode c s) =
      (.ok (c, true), ⟨some (s.next_index.getD 0), []⟩) := by
  have hrec : recycleCode c s = ⟨some (s.next_index.getD 0), [c]⟩ := by
    rw [recycleCode, if_neg hne, if_neg hres, ensureCodegenTables_next_index]
    simp [hpool]
  rw [hrec, allocateCode]
  simp only [ensureCodegenTables]
  rw [if_neg (by omega)]
  rw [allocateCodeInternal]
  simp only [sortRecycled, List.foldr_cons, List.foldr_nil, insertOrdered,
    List.take_cons, List.take_nil, firstNonReserved]
  rw [if_neg hres]
  simp [List.erase_cons_head]

theorem release_then_allocate_roundtrip_witness :
    allocateCode none 0 (recycleCode "c7" ⟨some 5, []⟩) =
      (.ok ("c7", true), ⟨some 5, []⟩) :=
  release_then_allocate_roundtrip none 0 "c7" ⟨some 5, []⟩ (by decide) (by decide) rfl
    (by decide)

lemma lexLeAux_antisymm :
    ∀ l1 l2, lexLeAux l1 l2 = true → lexLeAux l2 l1 = true → l1 = l2 := by
  intro l1
  induction l1 with
  | nil =>
    intro l2 _ h2
    cases l2 with
    | nil => rfl
    | cons d ds => exact absurd h2 (by simp [lexLeAux])
  | cons c cs ih =>
    intro l2 h1 h2
    cases l2 with
    | nil => exact absurd h1 (by simp [lexLeAux])
    | cons d ds =>
      rw [lexLeAux] at h1 h2
      by_cases hcd : c = d
      · subst hcd
        rw [if_pos rfl] at h1 h2
        rw [ih ds h1 h2]
      · rw [if_neg hcd] at h1
        rw [if_neg (fun h => hcd h.symm)] at h2
        have hlt1 : c < d := of_decide_eq_true h1
        have hlt2 : d < c := of_decide_eq_true h2
        exact absurd hlt2 (lt_asymm hlt1)

lemma string_toList_inj (a b : String) (h : a.toList = b.toList) : a = b := by
  cases a; cases b
  simp only [String.toList] at h
  rw [h]

lemma lexLe_antisymm (a b : String) (h1 : lexLe a b = true) (h2 : lexLe b a = true) :
    a = b :=
  string_toList_inj a b (lexLeAux_antisymm a.toList b.toList h1 h2)

lemma sortRecycled_pair (a b : String) :
    sortRecycled [a, b] = if recycledOrder a b then [a, b] else [b, a] := by
  simp [sortRecycled, insertOrdered]

/-- C4: with exactly two non-reserved codes in the recycle pool, in either
release order, `allocate` returns the shorter one first; at equal lengths
it returns the lexicographically smaller one. -/
theorem allocate_recycled_selection_order (maxRetries : Nat) (s : CodegenState)
    (c1 c2 : String)
    (hpool : s.recycled_codes = [c1, c2] ∨ s.recycled_codes = [c2, c1])
    (h1 : c1 ∉ RESERVED_CODES) (_h2 : c2 ∉ RESERVED_CODES) :
    (c1.length < c2.length →
      allocateCodeInternal maxRetries s =
        (.ok (c1, true), { s with recycled_codes := s.recycled_codes.erase c1 })) ∧
    (c1.length = c2.length → lexLe c1 c2 = true → c1 ≠ c2 →
      allocateCodeInternal maxRetries s =
        (.ok (c1, true), { s with recycled_codes := s.recycled_codes.erase c1 })) := by
  have main : ∀ hord : recycledOrder c1 c2 = true, recycledOrder c2 c1 = false →
      allocateCodeInternal maxRetries s =
        (.ok (c1, true), { s with recycled_codes := s.recycled_codes.erase c1 }) := by
    intro hord hord2
    have hsorted : sortRecycled s.recycled_codes = [c1, c2] := by
      rcases hpool with hp | hp <;> rw [hp, sortRecycled_pair]
      · rw [if_pos hord]
      · rw [if_neg (by rw [hord2]; exact fun h => Bool.false_ne_true h)]
    rw [allocateCodeInternal, hsorted]
    simp only [List.take_cons, List.take_nil, firstNonReserved]
    rw [if_neg h1]
  constructor
  · intro hlen
    apply main
    · rw [recycledOrder, if_neg (by omega)]
      exact decide_eq_true hlen
    · rw [recycledOrder, if_neg (by omega)]
      exact decide_eq_false (by omega)
  · intro hlen hlex hne
    apply main
    · rw [recycledOrder, if_pos hlen]
      exact hlex
    · rw [recycledOrder, if_pos hlen.symm]
      cases hrev : lexLe c2 c1
      · rfl
      · exact absurd (lexLe_antisymm c1 c2 hlex hrev).symm (fun h => hne h.symm)

theorem allocate_recycled_selection_order_witness :
    allocateCodeInternal 3 ⟨some 0, ["bb", "z"]⟩ =
      (.ok ("z", true), ⟨some 0, ["bb"]⟩) :=
  (allocate_recycled_selection_order 3 ⟨some 0, ["bb", "z"]⟩ "z" "bb"
    (Or.inr rfl) (by decide) (by decide)).1 (by decide)

/-- C5: reserved strings are excluded on both sides: releasing a reserved
string is a complete no-op on the store (it never enters the recycle
pool), and no successful `allocateCode` ever returns a reserved string,
whether through the recycled path or the cursor path. -/
theorem reserved_codes_never_recycled_never_allocated :
    (∀ c s, c ∈ RESERVED_CODES → recycleCode c s = s) ∧
    (∀ limits n s c b s', allocateCode limits n s = (.ok (c, b), s') →
      c ∉ RESERVED_CODES) := by
  constructor
  · intro c s hc
    simp only [recycleCode, if_pos hc]
    split <;> rfl
  · intro limits n s c b s' h
    rw [allocateCode] at h
    split at h
    · exact absurd h (by simp)
    · rw [allocateCodeInternal] at h
      split at h
      · rename_i cf hf
        simp only [Prod.mk.injEq, Except.ok.injEq] at h
        obtain ⟨⟨hcf, _⟩, _⟩ := h
        subst hcf
        exact (firstNonReserved_spec _ _ hf).1
      · split at h
        · exact absurd h (by simp)
        · split at h
          · exact absurd h (by simp)
          · rename_i p m2 cf hsk
            simp only [Prod.mk.injEq, Except.ok.injEq] at h
            obtain ⟨⟨hcf, _⟩, _⟩ := h
            subst hcf
            exact (skipReservedCodes_spec _ _ _ _ hsk).2.2.1

theorem reserved_codes_never_recycled_never_allocated_witness :
    recycleCode "api" ⟨some 0, []⟩ = ⟨some 0, []⟩ ∧ "a" ∉ RESERVED_CODES :=
  ⟨reserved_codes_never_recycled_never_allocated.1 "api" ⟨some 0, []⟩ (by decide),
   reserved_codes_never_recycled_never_allocated.2 none 0 ⟨some 0, []⟩ "a" false
     ⟨some 1, []⟩ rfl⟩

/-- C9: `ensureCodegenTables` is state-preserving once the cursor row
exists: its initialisation insert is `INSERT IGNORE`, so an existing
`next_index` is never reset and the recycle pool is untouched. -/
theorem ensureCodegenTables_preserves_initialized (s : CodegenState) (k : Nat)
    (h : s.next_index = some k) : ensureCodegenTables s = s := by
  rw [ensureCodegenTables, h]

theorem ensureCodegenTables_preserves_initialized_witness :
    ensureCodegenTables ⟨some 7, ["zz"]⟩ = ⟨some 7, ["zz"]⟩ :=
  ensureCodegenTables_preserves_initialized ⟨some 7, ["zz"]⟩ 7 rfl

/-- C10: when the configuration has no `limits` section, or omits the two
allocator keys, `allocateCode` does not fail on the missing configuration:
it behaves exactly as with an explicit concurrent ceiling of 50 and
reserved-skip retry limit of 10. -/
theorem allocateCode_defaults_missing_limits (limits : Option LimitsConfig)
    (n : Nat) (s : CodegenState)
    (h1 : limits.bind LimitsConfig.codeAllocationRetries = none)
    (h2 : limits.bind LimitsConfig.maxConcurrentAllocations = none) :
    allocateCode limits n s =
      allocateCode (some ⟨none, none, none, some 10, some 50⟩) n s := by
  rw [allocateCode, allocateCode, h1, h2]
  rfl

theorem allocateCode_defaults_missing_limits_witness :
    allocateCode none 0 ⟨some 0, []⟩ =
      allocateCode (some ⟨none, none, none, some 10, some 50⟩) 0 ⟨some 0, []⟩ :=
  allocateCode_defaults_missing_limits none 0 ⟨some 0, []⟩ rfl rfl

/-! ## Theorems: the rate limiter -/

/-- C7: the limiter returns the three raw sliding-window counts, and it
denies exactly when the identity count or the address count has reached
the per-caller ceiling or the global count has reached the global ceiling;
it allows exactly when all three are strictly below their ceilings. -/
theorem checkLinkShortenAllowed_decision (limits : LimitsConfig)
    (rows : List ShortLinkRow) (now : Int) (visitorUuid ip : String) (U G : Nat)
    (hU : limits.linkShortenerPerHour = some U)
    (hG : limits.linkShortenerGlobalPerHour = some G) :
    let d := checkLinkShortenAllowed limits rows now visitorUuid ip
    let windowRows := rows.filter (inWindow now (windowMinutesOf limits))
    d.byUuid = windowRows.countP (fun r => decide (r.visitor_uuid = some visitorUuid)) ∧
    d.byIp = windowRows.countP (fun r => decide (r.ip = some ip)) ∧
    d.globalCount = windowRows.length ∧
    (d.allowed = false ↔ U ≤ d.byUuid ∨ U ≤ d.byIp ∨ G ≤ d.globalCount) ∧
    (d.allowed = true ↔ d.byUuid < U ∧ d.byIp < U ∧ d.globalCount < G) := by
  refine ⟨rfl, rfl, rfl, ?_, ?_⟩
  · simp only [checkLinkShortenAllowed, hU, hG, jsLtOpt, Bool.and_eq_false_iff,
      decide_eq_false_iff_not, Nat.not_lt]
    tauto
  · simp only [checkLinkShortenAllowed, hU, hG, jsLtOpt, Bool.and_eq_true,
      decide_eq_true_eq]
    tauto

theorem checkLinkShortenAllowed_decision_witness :
    let d := checkLinkShortenAllowed ⟨some 2, some 3, some 60, none, none⟩
      [⟨"aa", 100, some "u1", some "ip1", none⟩] 110 "u1" "ip1"
    let windowRows := List.filter
      (inWindow 110 (windowMinutesOf ⟨some 2, some 3, some 60, none, none⟩))
      [⟨"aa", 100, some "u1", some "ip1", none⟩]
    d.byUuid = windowRows.countP (fun r => decide (r.visitor_uuid = some "u1")) ∧
    d.byIp = windowRows.countP (fun r => decide (r.ip = some "ip1")) ∧
    d.globalCount = windowRows.length ∧
    (d.allowed = false ↔ 2 ≤ d.byUuid ∨ 2 ≤ d.byIp ∨ 3 ≤ d.globalCount) ∧
    (d.allowed = true ↔ d.byUuid < 2 ∧ d.byIp < 2 ∧ d.globalCount < 3) :=
  checkLinkShortenAllowed_decision ⟨some 2, some 3, some 60, none, none⟩
    [⟨"aa", 100, some "u1", some "ip1", none⟩] 110 "u1" "ip1" 2 3 rfl rfl

/-! ## Theorems: the pruner -/

lemma pruneLoop_no_fail (f : String → Bool) :
    ∀ codes links cg d, (∀ x ∈ codes, f x = false) →
      ∃ n l cg1, pruneLoop f codes links cg d = (true, n, l, cg1) := by
  intro codes
  induction codes with
  | nil => intro links cg d _; exact ⟨d, links, cg, rfl⟩
  | cons c rest ih =>
    intro links cg d h
    have hc : f c = false := h c (List.mem_cons_self c rest)
    have htl : ∀ x ∈ rest, f x = false := fun x hx => h x (List.mem_cons_of_mem c hx)
    rw [pruneLoop]
    by_cases hce : c = ""
    · rw [if_pos hce]
      exact ih links cg d htl
    · rw [if_neg hce, hc]
      simp only [Bool.false_eq_true, if_false]
      split
      · exact ih _ _ _ htl
      · exact ih _ _ _ htl

lemma pruneLoop_append (f : String → Bool) :
    ∀ l1 links cg d n l cg1, pruneLoop f l1 links cg d = (true, n, l, cg1) →
      ∀ l2, pruneLoop f (l1 ++ l2) links cg d = pruneLoop f l2 l cg1 n := by
  intro l1
  induction l1 with
  | nil =>
    intro links cg d n l cg1 h l2
    rw [pruneLoop] at h
    simp only [Prod.mk.injEq] at h
    obtain ⟨_, rfl, rfl, rfl⟩ := h
    rfl
  | cons c rest ih =>
    intro links cg d n l cg1 h l2
    rw [List.cons_append, pruneLoop]
    rw [pruneLoop] at h
    by_cases hce : c = ""
    · rw [if_pos hce] at h ⊢
      exact ih links cg d n l cg1 h l2
    · rw [if_neg hce] at h ⊢
      by_cases hfc : f c = true
      · rw [if_pos hfc] at h
        exact absurd h (by simp)
      · rw [if_neg hfc] at h ⊢
        split at h
        · rename_i haff
          rw [if_pos haff]
          exact ih _ _ _ n l cg1 h l2
        · rename_i haff
          rw [if_neg haff]
          exact ih _ _ _ n l cg1 h l2

lemma pruneLoop_fail_head (f : String → Bool) (c : String) (rest : List String)
    (links : List ShortLinkRow) (cg : CodegenState) (d : Nat)
    (hc : f c = true) (hne : c ≠ "") :
    pruneLoop f (c :: rest) links cg d = (false, d, links, cg) := by
  rw [pruneLoop, if_neg hne, hc]
  simp

/-- C6 (amended): the per-item loop of `pruneOldLinks` sits inside a single
try/catch, so a failure on one batch item is caught (the function returns
the `{error: true}` marker instead of raising to its caller) but it stops
the remaining items of the batch: the items before the first failing one
are processed, and the final state is exactly the state at the moment of
the failure — nothing after it is touched. -/
theorem prune_failure_stops_batch_without_raising (f : String → Bool)
    (days now : Int) (links : List ShortLinkRow) (cg : CodegenState)
    (pre : List String) (c : String) (rest : List String)
    (hdays : 0 < days) (hbatch : staleBatch days now links = pre ++ c :: rest)
    (hpre : ∀ x ∈ pre, f x = false) (hc : f c = true) (hne : c ≠ "") :
    ∃ n l cg1, pruneLoop f pre links cg 0 = (true, n, l, cg1) ∧
      pruneOldLinks f (some days) now links cg = (.errored, l, cg1) := by
  obtain ⟨n, l, cg1, hloop⟩ := pruneLoop_no_fail f pre links cg 0 hpre
  refine ⟨n, l, cg1, hloop, ?_⟩
  rw [pruneOldLinks, if_neg (by omega), hbatch]
  have hemp : (pre ++ c :: rest).isEmpty = false := by
    cases pre <;> rfl
  rw [hemp]
  simp only [Bool.false_eq_true, if_false]
  rw [pruneLoop_append f pre links cg 0 n l cg1 hloop (c :: rest),
    pruneLoop_fail_head f c rest l cg1 n hc hne]

theorem prune_failure_stops_batch_without_raising_witness :
    ∃ n l cg1,
      pruneLoop (fun c => decide (c = "bb")) ["aa"]
          [⟨"aa", 0, none, none, none⟩, ⟨"bb", 10, none, none, none⟩]
          ⟨some 0, []⟩ 0 = (true, n, l, cg1) ∧
      pruneOldLinks (fun c => decide (c = "bb")) (some 1) 100000
          [⟨"aa", 0, none, none, none⟩, ⟨"bb", 10, none, none, none⟩]
          ⟨some 0, []⟩ = (.errored, l, cg1) :=
  prune_failure_stops_batch_without_raising (fun c => decide (c = "bb")) 1 100000
    [⟨"aa", 0, none, none, none⟩, ⟨"bb", 10, none, none, none⟩] ⟨some 0, []⟩
    ["aa"] "bb" [] (by decide) (by decide) (by decide) (by decide) (by decide)

/-- C6 (counterexample to the claim as stated): with two stale links and a
transient failure on the first item's DELETE, `pruneOldLinks` returns the
error marker and leaves the second stale item unprocessed (both rows are
still present and nothing was recycled), while the same run without a
failure prunes both; so one item's failure does prevent the remaining
items of the batch from being processed. -/
theorem prune_failure_aborts_batch_counterexample :
    pruneOldLinks (fun c => decide (c = "aa")) (some 1) 100000
        [⟨"aa", 0, none, none, none⟩, ⟨"bb", 10, none, none, none⟩] ⟨some 0, []⟩
      = (.errored, [⟨"aa", 0, none, none, none⟩, ⟨"bb", 10, none, none, none⟩],
          ⟨some 0, []⟩) ∧
    pruneOldLinks (fun _ => false) (some 1) 100000
        [⟨"aa", 0, none, none, none⟩, ⟨"bb", 10, none, none, none⟩] ⟨some 0, []⟩
      = (.done 2, [], ⟨some 0, ["aa", "bb"]⟩) :=
  ⟨rfl, rfl⟩

/-! ## Theorems: the configuration validator -/

/-- C8 (counterexample to the claim as stated): `ConfigSchema` has no
`limits` key, so `validateConfig` accepts a configuration whose four
schema sections are valid even though every limit value (per-identity and
global hourly limits, window width, allocation retries, concurrent
allocations) is missing. -/
theorem validateConfig_accepts_missing_limits :
    (validateConfig cfgWithoutLimits).isSome = true := by decide

/-- C8 (amended): the process-start validator checks only the `app`,
`features`, `server` and `database` sections; it never inspects the
limit values, so two raw configurations differing only in their `limits`
section validate identically — presence or positivity of the limits is
not enforced at validation time (the allocator and limiter read them at
use time, with defaults). -/
theorem validateConfig_ignores_limits (c : RawConfig) (l1 l2 : Option LimitsConfig) :
    validateConfig { c with limits := l1 } = validateConfig { c with limits := l2 } :=
  rfl
